import Mathlib

/-!
Verification of the kfifo ring-buffer implementation (kfifo.c / kfifo.h).

The C code is shallowly embedded: the `struct __kfifo` becomes the
structure `Kfifo`, the backing `unsigned char` buffer becomes a function
from physical byte addresses to byte values, `memcpy` becomes an interval
overwrite of that function, and every `unsigned int` computation is
performed modulo 2^32.  Fields `in` and `out` of the C struct are named
`in_` and `out_` because `in` is a Lean keyword.
-/

namespace Kfifo

/-- Modulus of the C `unsigned int` type. -/
def U32 : Nat := 4294967296

/-- Reduction of a value into `unsigned int` range. -/
def u32 (n : Nat) : Nat := n % U32

/-- Wrapping `unsigned int` addition. -/
def uadd (a b : Nat) : Nat := (a + b) % U32

/-- Wrapping `unsigned int` subtraction. -/
def usub (a b : Nat) : Nat := (a % U32 + (U32 - b % U32)) % U32

/-- Wrapping `unsigned int` multiplication. -/
def umul (a b : Nat) : Nat := (a * b) % U32

/-- State of `struct __kfifo`: write index `in`, read index `out`,
capacity mask, element size, and the backing byte buffer modelled as a
function from physical byte addresses to stored byte values. -/
structure State where
  in_ : Nat
  out_ : Nat
  mask : Nat
  esize : Nat
  data : Nat → Nat

/-- `memcpy(d + pos, src, src.length)`: overwrite the byte interval
starting at `pos` with the bytes of `src`. -/
def memwrite (d : Nat → Nat) (pos : Nat) (src : List Nat) : Nat → Nat :=
  fun i => if pos ≤ i ∧ i < pos + src.length then src.getD (i - pos) 0 else d i

/-- `memcpy(dst, d + pos, n)`: read `n` consecutive bytes starting at
physical address `pos`. -/
def memread (d : Nat → Nat) (pos n : Nat) : List Nat :=
  (List.range n).map (fun i => d (pos + i))

/-- Normal form of the two-segment wraparound write performed by
`kfifo_copy_in`, in byte units: `base` is the physical start address,
`LB` the number of bytes to write, `CB` the byte capacity. -/
def circWrite (d : Nat → Nat) (base LB CB : Nat) (src : List Nat) : Nat → Nat :=
  memwrite (memwrite d base (src.take (min LB (CB - base)))) 0
    ((src.drop (min LB (CB - base))).take (LB - min LB (CB - base)))

/-- Normal form of the two-segment wraparound read performed by
`kfifo_copy_out`, in byte units. -/
def circRead (d : Nat → Nat) (base LB CB : Nat) : List Nat :=
  memread d base (min LB (CB - base)) ++ memread d 0 (LB - min LB (CB - base))

/-- First bit-smear step of `rounddown_pow_of_two`: `n |= n >> 1`. -/
def sm1 (n : Nat) : Nat := n ||| (n >>> 1)

/-- Second bit-smear step: `n |= n >> 2`. -/
def sm2 (n : Nat) : Nat := sm1 n ||| (sm1 n >>> 2)

/-- Third bit-smear step: `n |= n >> 4`. -/
def sm3 (n : Nat) : Nat := sm2 n ||| (sm2 n >>> 4)

/-- Fourth bit-smear step: `n |= n >> 8`. -/
def sm4 (n : Nat) : Nat := sm3 n ||| (sm3 n >>> 8)

/-- Fifth bit-smear step: `n |= n >> 16`. -/
def sm5 (n : Nat) : Nat := sm4 n ||| (sm4 n >>> 16)

/-- `rounddown_pow_of_two` from kfifo.c: smear the high bit downward with
five or-shift steps, then add one (wrapping at 2^32, since the sum is an
`unsigned int`) and halve. -/
def rounddown_pow_of_two (n : Nat) : Nat :=
  u32 (sm5 (u32 n) + 1) >>> 1

/-- `kfifo_unused` from kfifo.c: `(mask + 1) - (in - out)` in `unsigned
int` arithmetic. -/
def kfifo_unused (f : State) : Nat :=
  usub (uadd f.mask 1) (usub f.in_ f.out_)

/-- `kfifo_len` from kfifo.h: the occupancy `in - out` in `unsigned int`
arithmetic. -/
def kfifo_len (f : State) : Nat := usub f.in_ f.out_

/-- The C constant `EINVAL` from errno.h. -/
def EINVAL : Int := 22

/-- `__kfifo_init` from kfifo.c.  Divides the byte size by the element
size, rounds the element count down to a power of two, zeroes both
indices, records the element size and buffer, and fails with `-EINVAL`
(setting `mask` to 0) when fewer than two elements fit. -/
def __kfifo_init (f : State) (buffer : Nat → Nat) (size esize : Nat) :
    Int × State :=
  let size := size / esize
  let size := rounddown_pow_of_two size
  let f := { f with in_ := 0, out_ := 0, esize := esize, data := buffer }
  if size < 2 then (-EINVAL, { f with mask := 0 })
  else (0, { f with mask := size - 1 })

/-- `kfifo_copy_in` from kfifo.c: two-segment wraparound copy of `len`
elements of `src` into the buffer at circular element offset `off`. -/
def kfifo_copy_in (f : State) (src : List Nat) (len off : Nat) : State :=
  let size := uadd f.mask 1
  let esize := f.esize
  let off := u32 off &&& f.mask
  let off := if esize ≠ 1 then umul off esize else off
  let size := if f.esize ≠ 1 then umul size esize else size
  let len := if f.esize ≠ 1 then umul len esize else len
  let l := min len (usub size off)
  { f with data :=
      memwrite (memwrite f.data off (src.take l)) 0 ((src.drop l).take (len - l)) }

/-- `__kfifo_in` from kfifo.c: clamp `len` to the unused space, copy, and
advance the write index; returns the transferred count and new state. -/
def __kfifo_in (f : State) (buf : List Nat) (len : Nat) : Nat × State :=
  let l := kfifo_unused f
  let len := if len > l then l else len
  let f' := kfifo_copy_in f buf len f.in_
  (len, { f' with in_ := uadd f'.in_ len })

/-- `kfifo_copy_out` from kfifo.c: two-segment wraparound read of `len`
elements starting at circular element offset `off`; returns the bytes
written into the destination. -/
def kfifo_copy_out (f : State) (len off : Nat) : List Nat :=
  let size := uadd f.mask 1
  let esize := f.esize
  let off := u32 off &&& f.mask
  let off := if esize ≠ 1 then umul off esize else off
  let size := if f.esize ≠ 1 then umul size esize else size
  let len := if f.esize ≠ 1 then umul len esize else len
  let l := min len (usub size off)
  memread f.data off l ++ memread f.data 0 (len - l)

/-- `__kfifo_out_peek` from kfifo.c: clamp `len` to the occupancy and
read without advancing the read index. -/
def __kfifo_out_peek (f : State) (len : Nat) : Nat × List Nat :=
  let l := usub f.in_ f.out_
  let len := if len > l then l else len
  (len, kfifo_copy_out f len f.out_)

/-- `__kfifo_out` from kfifo.c: peek, then advance the read index by the
transferred count. -/
def __kfifo_out (f : State) (len : Nat) : Nat × List Nat × State :=
  let p := __kfifo_out_peek f len
  (p.1, p.2, { f with out_ := uadd f.out_ p.1 })

/-- `__kfifo_max_r` from kfifo.c: clamp a record length to the maximum
value expressible in a `recsize`-byte header. -/
def __kfifo_max_r (len recsize : Nat) : Nat :=
  let m := u32 ((1 <<< (recsize <<< 3)) - 1)
  if len > m then m else len

/-- The `__KFIFO_PEEK` macro: read the byte at circular offset `out`. -/
def KFIFO_PEEK (data : Nat → Nat) (out mask : Nat) : Nat :=
  data (out &&& mask)

/-- `__kfifo_peek_n` from kfifo.c: decode the little-endian record length
header stored at the current read offset. -/
def __kfifo_peek_n (f : State) (recsize : Nat) : Nat :=
  let l := KFIFO_PEEK f.data f.out_ f.mask
  if recsize - 1 ≠ 0 then
    l ||| (KFIFO_PEEK f.data (uadd f.out_ 1) f.mask <<< 8)
  else l

/-- The `__KFIFO_POKE` macro: store one byte (value truncated to
`unsigned char`) at circular offset `idx`. -/
def KFIFO_POKE (data : Nat → Nat) (idx mask val : Nat) : Nat → Nat :=
  fun i => if i = (idx &&& mask) then val % 256 else data i

/-- `__kfifo_poke_n` from kfifo.c: store the little-endian record length
header at the current write offset. -/
def __kfifo_poke_n (f : State) (n recsize : Nat) : State :=
  let d := KFIFO_POKE f.data f.in_ f.mask n
  let d := if recsize > 1 then KFIFO_POKE d (uadd f.in_ 1) f.mask (n >>> 8) else d
  { f with data := d }

/-- `__kfifo_len_r` from kfifo.c: decode the length header of the next
record. -/
def __kfifo_len_r (f : State) (recsize : Nat) : Nat :=
  __kfifo_peek_n f recsize

/-- `__kfifo_in_r` from kfifo.c: reject the record when it does not fit,
otherwise store the header, copy the payload after it, and advance the
write index by `len + recsize` in one step. -/
def __kfifo_in_r (f : State) (buf : List Nat) (len recsize : Nat) :
    Nat × State :=
  if len + recsize > kfifo_unused f then (0, f)
  else
    let f1 := __kfifo_poke_n f len recsize
    let f2 := kfifo_copy_in f1 buf len (f1.in_ + recsize)
    (len, { f2 with in_ := uadd f2.in_ (len + recsize) })

/-- `kfifo_out_copy_r` from kfifo.c: decode the record length `n`, clamp
`len` to it, and read that many payload bytes from after the header;
returns the transferred count, the decoded `n`, and the bytes. -/
def kfifo_out_copy_r (f : State) (len recsize : Nat) :
    Nat × Nat × List Nat :=
  let n := __kfifo_peek_n f recsize
  let len := if len > n then n else len
  (len, n, kfifo_copy_out f len (f.out_ + recsize))

/-- `__kfifo_out_peek_r` from kfifo.c: on an empty fifo return 0,
otherwise copy out a record without advancing the read index. -/
def __kfifo_out_peek_r (f : State) (len recsize : Nat) : Nat × List Nat :=
  if f.in_ = f.out_ then (0, [])
  else
    let r := kfifo_out_copy_r f len recsize
    (r.1, r.2.2)

/-- `__kfifo_out_r` from kfifo.c: on an empty fifo return 0, otherwise
copy out a record and advance the read index by the full decoded record
length plus the header width. -/
def __kfifo_out_r (f : State) (len recsize : Nat) :
    Nat × List Nat × State :=
  if f.in_ = f.out_ then (0, [], f)
  else
    let r := kfifo_out_copy_r f len recsize
    (r.1, r.2.2, { f with out_ := uadd f.out_ (r.2.1 + recsize) })

/-- `__kfifo_skip_r` from kfifo.c: advance the read index past the next
record, with no emptiness check. -/
def __kfifo_skip_r (f : State) (recsize : Nat) : State :=
  { f with out_ := uadd f.out_ (__kfifo_peek_n f recsize + recsize) }

/-- The `kfifo_reset` macro from kfifo.h: zero both indices. -/
def kfifo_reset (f : State) : State :=
  { f with in_ := 0, out_ := 0 }

/-- The `kfifo_reset_out` macro from kfifo.h: discard queued data by
setting the read index to the write index. -/
def kfifo_reset_out (f : State) : State :=
  { f with out_ := f.in_ }

/-- Well-formedness of a fifo state produced by `__kfifo_init` and
preserved by the operations: indices in `unsigned int` range, capacity a
power of two (exponent `m`, at most 30 as produced by
`rounddown_pow_of_two`), a positive element size, the byte capacity
bounded, and occupancy at most the capacity. -/
def Inv (f : State) (m : Nat) : Prop :=
  f.in_ < U32 ∧ f.out_ < U32 ∧ f.mask + 1 = 2 ^ m ∧ m ≤ 30 ∧
  1 ≤ f.esize ∧ (f.mask + 1) * f.esize ≤ 2 ^ 31 ∧ kfifo_len f ≤ f.mask + 1

/-- The queued bytes in fifo order: byte `j` of the logical queue lives
at physical byte address `(out * esize + j)` taken circularly. -/
def byteContents (f : State) : List Nat :=
  (List.range (kfifo_len f * f.esize)).map
    (fun j => f.data ((f.out_ % (f.mask + 1) * f.esize + j) % ((f.mask + 1) * f.esize)))

/-- Run a sequence of `__kfifo_in` calls, each enqueueing one buffer
whose element count is its byte length divided by the element size. -/
def enqSeq (f : State) : List (List Nat) → State
  | [] => f
  | b :: bs => enqSeq (__kfifo_in f b (b.length / f.esize)).2 bs

/-- Every enqueue of the sequence is fully accepted: its element count
fits in the unused space of the fifo state it is applied to. -/
def acceptedSeq (f : State) : List (List Nat) → Bool
  | [] => true
  | b :: bs =>
    decide (b.length / f.esize ≤ kfifo_unused f) &&
      acceptedSeq (__kfifo_in f b (b.length / f.esize)).2 bs

/-- Run a sequence of `__kfifo_out` calls with the given element counts
and concatenate the dequeued buffers. -/
def deqSeq (f : State) : List Nat → List Nat × State
  | [] => ([], f)
  | n :: ns =>
    let r := __kfifo_out f n
    let rest := deqSeq r.2.2 ns
    (r.2.1 ++ rest.1, rest.2)

/-- An all-zero backing buffer. -/
def zeroBuf : Nat → Nat := fun _ => 0

/-- A freshly initialized byte-mode fifo of capacity 8 over a zeroed
buffer. -/
def freshFifo8 : State :=
  (__kfifo_init ⟨0, 0, 0, 0, zeroBuf⟩ zeroBuf 8 1).2

/-- A freshly initialized byte-mode fifo of capacity 1024 over a zeroed
buffer. -/
def bigFifo : State :=
  (__kfifo_init ⟨0, 0, 0, 0, zeroBuf⟩ zeroBuf 1024 1).2

/-- A reachable empty record-mode fifo state whose read offset sits on a
stale payload byte: two 6-byte records are enqueued and fully dequeued
in a capacity-8 fifo, so the second record wraps and the final read
offset (14 mod 8 = 6) lands on the last payload byte of the first
record, which holds 16. -/
def staleFifo : State :=
  (__kfifo_out_r
    (__kfifo_in_r
      (__kfifo_out_r
        (__kfifo_in_r freshFifo8 [11, 12, 13, 14, 15, 16] 6 1).2
        6 1).2.2
      [21, 22, 23, 24, 25, 26] 6 1).2
    6 1).2.2

/-! Helper lemmas about the bit-smearing in `rounddown_pow_of_two`. -/

theorem or_shift_bit (a d j i : Nat) (hi : i = 0 ∨ i = d)
    (h : a.testBit (j + i) = true) : (a ||| a >>> d).testBit j = true := by
  rcases hi with rfl | rfl
  · simp_all [Nat.testBit_or]
  · simp only [Nat.testBit_or, Nat.testBit_shiftRight, Bool.or_eq_true]
    right
    rw [Nat.add_comm]
    exact h

theorem or_shift_lt (a d K : Nat) (h : a < 2 ^ K) : a ||| a >>> d < 2 ^ K :=
  Nat.or_lt_two_pow h (Nat.lt_of_le_of_lt
    (by rw [Nat.shiftRight_eq_div_pow]; exact Nat.div_le_self _ _) h)

theorem testBit_log2_self (n : Nat) (h0 : n ≠ 0) : n.testBit n.log2 = true := by
  rw [Nat.testBit_to_div_mod]
  have h1 : 2 ^ n.log2 ≤ n := Nat.log2_self_le h0
  have h2 : n < 2 ^ (n.log2 + 1) := Nat.lt_log2_self
  have h4 : n / 2 ^ n.log2 < 2 := by
    rw [Nat.div_lt_iff_lt_mul (Nat.pos_pow_of_pos n.log2 (by norm_num))]
    calc n < 2 ^ (n.log2 + 1) := h2
      _ = 2 * 2 ^ n.log2 := by ring
  have h5 : 1 ≤ n / 2 ^ n.log2 :=
    (Nat.one_le_div_iff (Nat.pos_pow_of_pos n.log2 (by norm_num))).2 h1
  have h6 : n / 2 ^ n.log2 = 1 := by omega
  simp [h6]

theorem sm5_testBit (n j : Nat) (h0 : 1 ≤ n) (hj : j ≤ n.log2)
    (hk : n.log2 ≤ 31) : (sm5 n).testBit j = true := by
  set k := n.log2 with hkdef
  set m := k - j with hm
  have hdec : m = m % 2 + 2 * (m / 2 % 2) + 4 * (m / 4 % 2) +
      8 * (m / 8 % 2) + 16 * (m / 16 % 2) := by
    have : m < 32 := by omega
    omega
  have hb : n.testBit (j + m) = true := by
    have hjm : j + m = k := by omega
    rw [hjm]
    exact testBit_log2_self n (by omega)
  have h1 : (sm1 n).testBit (j + 2 * (m / 2 % 2) + 4 * (m / 4 % 2) +
      8 * (m / 8 % 2) + 16 * (m / 16 % 2)) = true := by
    apply or_shift_bit n 1 _ (m % 2) (by omega)
    rw [show j + 2 * (m / 2 % 2) + 4 * (m / 4 % 2) + 8 * (m / 8 % 2) +
      16 * (m / 16 % 2) + m % 2 = j + m by omega]
    exact hb
  have h2 : (sm2 n).testBit (j + 4 * (m / 4 % 2) + 8 * (m / 8 % 2) +
      16 * (m / 16 % 2)) = true := by
    apply or_shift_bit (sm1 n) 2 _ (2 * (m / 2 % 2)) (by omega)
    rw [show j + 4 * (m / 4 % 2) + 8 * (m / 8 % 2) + 16 * (m / 16 % 2) +
      2 * (m / 2 % 2) = j + 2 * (m / 2 % 2) + 4 * (m / 4 % 2) +
      8 * (m / 8 % 2) + 16 * (m / 16 % 2) by omega]
    exact h1
  have h3 : (sm3 n).testBit (j + 8 * (m / 8 % 2) + 16 * (m / 16 % 2)) = true := by
    apply or_shift_bit (sm2 n) 4 _ (4 * (m / 4 % 2)) (by omega)
    rw [show j + 8 * (m / 8 % 2) + 16 * (m / 16 % 2) + 4 * (m / 4 % 2) =
      j + 4 * (m / 4 % 2) + 8 * (m / 8 % 2) + 16 * (m / 16 % 2) by omega]
    exact h2
  have h4 : (sm4 n).testBit (j + 16 * (m / 16 % 2)) = true := by
    apply or_shift_bit (sm3 n) 8 _ (8 * (m / 8 % 2)) (by omega)
    rw [show j + 16 * (m / 16 % 2) + 8 * (m / 8 % 2) =
      j + 8 * (m / 8 % 2) + 16 * (m / 16 % 2) by omega]
    exact h3
  apply or_shift_bit (sm4 n) 16 _ (16 * (m / 16 % 2)) (by omega)
  exact h4

theorem sm5_lt (n K : Nat) (h : n < 2 ^ K) : sm5 n < 2 ^ K := by
  unfold sm5 sm4 sm3 sm2 sm1
  exact or_shift_lt _ _ _ (or_shift_lt _ _ _ (or_shift_lt _ _ _
    (or_shift_lt _ _ _ (or_shift_lt _ _ _ h))))

theorem sm5_eq (n : Nat) (h0 : 1 ≤ n) (h1 : n < 2 ^ 32) :
    sm5 n = 2 ^ (n.log2 + 1) - 1 := by
  have hk : n.log2 ≤ 31 := by
    have := (Nat.log2_lt (show n ≠ 0 by omega)).2 h1
    omega
  apply Nat.eq_of_testBit_eq
  intro i
  rw [Nat.testBit_two_pow_sub_one]
  by_cases hi : i ≤ n.log2
  · rw [sm5_testBit n i h0 hi hk]
    simp [Nat.lt_succ_of_le hi]
  · have hlt : sm5 n < 2 ^ (n.log2 + 1) := sm5_lt n _ Nat.lt_log2_self
    have hlt2 : sm5 n < 2 ^ i :=
      Nat.lt_of_lt_of_le hlt (Nat.pow_le_pow_right (by norm_num) (by omega))
    rw [Nat.testBit_lt_two_pow hlt2]
    simp
    omega

/-- Claim C8 (amended): for `1 ≤ n < 2^31`, `rounddown_pow_of_two n` is
the largest power of two that is at most `n`; for `n = 0` it returns 0;
and, contrary to the original claim, for `2^31 ≤ n < 2^32` the increment
of the fully smeared value overflows the 32-bit accumulator and the
function returns 0 instead of `2^31`. -/
theorem rounddown_pow_of_two_correct (n : Nat) (h : n < U32) :
    (n = 0 → rounddown_pow_of_two n = 0) ∧
    (1 ≤ n → n < 2 ^ 31 →
      (∃ k, rounddown_pow_of_two n = 2 ^ k) ∧
      rounddown_pow_of_two n ≤ n ∧
      (∀ j, 2 ^ j ≤ n → 2 ^ j ≤ rounddown_pow_of_two n)) ∧
    (2 ^ 31 ≤ n → rounddown_pow_of_two n = 0) := by
  have hU : U32 = 2 ^ 32 := by decide
  refine ⟨?_, ?_, ?_⟩
  · rintro rfl
    decide
  · intro h1 h2
    have hu : u32 n = n := Nat.mod_eq_of_lt (by simpa [U32] using h)
    have hs : sm5 n = 2 ^ (n.log2 + 1) - 1 := sm5_eq n h1 (by omega)
    have hk : n.log2 ≤ 30 := by
      have := (Nat.log2_lt (show n ≠ 0 by omega)).2 h2
      omega
    have hpow : 2 ^ (n.log2 + 1) < U32 := by
      rw [hU]
      exact Nat.pow_lt_pow_right (by norm_num) (by omega)
    have hr : rounddown_pow_of_two n = 2 ^ n.log2 := by
      unfold rounddown_pow_of_two
      rw [hu, hs]
      have hpos : 1 ≤ 2 ^ (n.log2 + 1) := Nat.one_le_two_pow
      rw [show 2 ^ (n.log2 + 1) - 1 + 1 = 2 ^ (n.log2 + 1) by omega]
      rw [show u32 (2 ^ (n.log2 + 1)) = 2 ^ (n.log2 + 1) from Nat.mod_eq_of_lt hpow]
      rw [Nat.shiftRight_eq_div_pow, Nat.pow_succ, Nat.pow_one,
        Nat.mul_div_cancel _ (by norm_num)]
    refine ⟨⟨n.log2, hr⟩, ?_, ?_⟩
    · rw [hr]
      exact Nat.log2_self_le (by omega)
    · intro j hj
      rw [hr]
      have hjk : j ≤ n.log2 := by
        by_contra hgt
        have hge : 2 ^ (n.log2 + 1) ≤ 2 ^ j :=
          Nat.pow_le_pow_right (by norm_num) (by omega)
        have := Nat.lt_log2_self (n := n)
        omega
      exact Nat.pow_le_pow_right (by norm_num) hjk
  · intro h31
    have hu : u32 n = n := Nat.mod_eq_of_lt (by simpa [U32] using h)
    have hs : sm5 n = 2 ^ 32 - 1 := by
      have hk : n.log2 = 31 := by
        have hle : 31 ≤ n.log2 := (Nat.le_log2 (by omega)).2 h31
        have hlt : n.log2 < 32 := (Nat.log2_lt (by omega)).2 (by omega)
        omega
      rw [sm5_eq n (by omega) (by omega), hk]
    unfold rounddown_pow_of_two
    rw [hu, hs]
    decide

/-- Witness for `rounddown_pow_of_two_correct` at `n = 5`. -/
theorem rounddown_pow_of_two_correct_witness :
    (∃ k, rounddown_pow_of_two 5 = 2 ^ k) ∧
    rounddown_pow_of_two 5 ≤ 5 ∧
    (∀ j, 2 ^ j ≤ 5 → 2 ^ j ≤ rounddown_pow_of_two 5) :=
  (rounddown_pow_of_two_correct 5 (by decide)).2.1 (by decide) (by decide)

/-- Counterexample to claim C8 as originally stated: at `n = 2^31` the
function returns 0, although `2^31` itself is a power of two that is at
most `n`, so the result is not the largest such power of two. -/
theorem rounddown_pow_of_two_overflow_ce :
    2 ^ 31 ≤ 2147483648 ∧
    rounddown_pow_of_two 2147483648 = 0 ∧
    ¬ 2 ^ 31 ≤ rounddown_pow_of_two 2147483648 := by decide

/-- Claim C1 (amended): with indices in range and occupancy at most the
capacity, every state-mutating public operation preserves
`occupancy ≤ capacity` — unconditionally for enqueue, dequeue,
enqueue_record, reset and reset_read_only, and for dequeue_record and
skip_record under the additional condition that the decoded record
length plus the header width does not exceed the current occupancy
(which holds for headers written by enqueue_record but fails, e.g., for
skip_record on an empty fifo, since it performs no emptiness check).
The peek operations (dequeue_peek, dequeue_record_peek,
peek_record_length) do not mutate the state in the embedding, so they
preserve the invariant trivially. -/
theorem occupancy_invariant (f : State) (buf : List Nat) (len recsize : Nat)
    (h1 : f.in_ < U32) (h2 : f.out_ < U32)
    (hcap : f.mask + 1 ≤ 2147483648)
    (hocc : kfifo_len f ≤ f.mask + 1) :
    kfifo_len (__kfifo_in f buf len).2 ≤ f.mask + 1 ∧
    kfifo_len (__kfifo_out f len).2.2 ≤ f.mask + 1 ∧
    kfifo_len (__kfifo_in_r f buf len recsize).2 ≤ f.mask + 1 ∧
    (__kfifo_peek_n f recsize + recsize ≤ kfifo_len f →
      kfifo_len (__kfifo_out_r f len recsize).2.2 ≤ f.mask + 1) ∧
    (__kfifo_peek_n f recsize + recsize ≤ kfifo_len f →
      kfifo_len (__kfifo_skip_r f recsize) ≤ f.mask + 1) ∧
    kfifo_len (kfifo_reset f) ≤ f.mask + 1 ∧
    kfifo_len (kfifo_reset_out f) ≤ f.mask + 1 := by
  refine ⟨?_, ?_, ?_, ?_, ?_, ?_, ?_⟩
  · simp only [__kfifo_in, kfifo_copy_in]
    simp only [kfifo_len, kfifo_unused, usub, uadd, u32, U32] at *
    split <;> omega
  · simp only [__kfifo_out, __kfifo_out_peek]
    simp only [kfifo_len, usub, uadd, u32, U32] at *
    split <;> omega
  · simp only [__kfifo_in_r, __kfifo_poke_n, kfifo_copy_in]
    split
    · simp only [kfifo_len, kfifo_unused, usub, uadd, u32, U32] at *
      omega
    · simp only [kfifo_len, kfifo_unused, usub, uadd, u32, U32] at *
      omega
  · intro hn
    simp only [__kfifo_out_r, kfifo_out_copy_r]
    generalize hp : __kfifo_peek_n f recsize = p at *
    split
    · simp only [kfifo_len, usub, uadd, u32, U32] at *
      omega
    · simp only [kfifo_len, usub, uadd, u32, U32] at *
      omega
  · intro hn
    simp only [__kfifo_skip_r]
    generalize hp : __kfifo_peek_n f recsize = p at *
    simp only [kfifo_len, usub, uadd, u32, U32] at *
    omega
  · simp only [kfifo_reset, kfifo_len, usub, uadd, u32, U32] at *
    omega
  · simp only [kfifo_reset_out, kfifo_len, usub, uadd, u32, U32] at *
    omega

/-- Witness for `occupancy_invariant` on a fresh capacity-8 fifo. -/
theorem occupancy_invariant_witness :
    kfifo_len (__kfifo_in freshFifo8 [1, 2] 2).2 ≤ freshFifo8.mask + 1 :=
  (occupancy_invariant freshFifo8 [1, 2] 2 1
    (by decide) (by decide) (by decide) (by decide)).1

/-- Counterexample to claim C1 as originally stated: on a freshly
initialized (hence reachable, invariant-satisfying) capacity-8 fifo over
a zeroed buffer, the public operation `__kfifo_skip_r` pushes the
occupancy to `2^32 - 1`, far above the capacity. -/
theorem occupancy_invariant_skip_ce :
    kfifo_len freshFifo8 ≤ freshFifo8.mask + 1 ∧
    freshFifo8.mask + 1 < kfifo_len (__kfifo_skip_r freshFifo8 1) := by decide

/-- Claim C6 (amended): when the computed capacity
`rounddown_pow_of_two (size / esize)` is below 2 elements, init returns
`-EINVAL` and marks the fifo unusable by setting `mask` to 0 — but,
contrary to the original claim, it is not free of side effects on the
fifo: it also zeroes both indices and records the element size and the
buffer pointer.  Otherwise it sets `mask` to capacity − 1, zeroes both
indices, records the element size and the buffer pointer, and
returns 0. -/
theorem kfifo_init_spec (f : State) (buffer : Nat → Nat) (size esize : Nat) :
    (rounddown_pow_of_two (size / esize) < 2 →
      (__kfifo_init f buffer size esize).1 = -EINVAL ∧
      (__kfifo_init f buffer size esize).2.mask = 0 ∧
      (__kfifo_init f buffer size esize).2.in_ = 0 ∧
      (__kfifo_init f buffer size esize).2.out_ = 0 ∧
      (__kfifo_init f buffer size esize).2.esize = esize ∧
      (__kfifo_init f buffer size esize).2.data = buffer) ∧
    (2 ≤ rounddown_pow_of_two (size / esize) →
      (__kfifo_init f buffer size esize).1 = 0 ∧
      (__kfifo_init f buffer size esize).2.mask =
        rounddown_pow_of_two (size / esize) - 1 ∧
      (__kfifo_init f buffer size esize).2.in_ = 0 ∧
      (__kfifo_init f buffer size esize).2.out_ = 0 ∧
      (__kfifo_init f buffer size esize).2.esize = esize ∧
      (__kfifo_init f buffer size esize).2.data = buffer) := by
  by_cases h : rounddown_pow_of_two (size / esize) < 2 <;>
    simp [__kfifo_init, h]

/-- Witness for `kfifo_init_spec`: successful initialization with 8
bytes of backing store and 1-byte elements. -/
theorem kfifo_init_spec_witness :
    (__kfifo_init ⟨0, 0, 0, 0, zeroBuf⟩ zeroBuf 8 1).1 = 0 ∧
    (__kfifo_init ⟨0, 0, 0, 0, zeroBuf⟩ zeroBuf 8 1).2.mask =
      rounddown_pow_of_two 8 - 1 ∧
    (__kfifo_init ⟨0, 0, 0, 0, zeroBuf⟩ zeroBuf 8 1).2.in_ = 0 ∧
    (__kfifo_init ⟨0, 0, 0, 0, zeroBuf⟩ zeroBuf 8 1).2.out_ = 0 ∧
    (__kfifo_init ⟨0, 0, 0, 0, zeroBuf⟩ zeroBuf 8 1).2.esize = 1 ∧
    (__kfifo_init ⟨0, 0, 0, 0, zeroBuf⟩ zeroBuf 8 1).2.data = zeroBuf :=
  (kfifo_init_spec ⟨0, 0, 0, 0, zeroBuf⟩ zeroBuf 8 1).2 (by decide)

/-- Counterexample to claim C6 as originally stated: a failing init call
is not side-effect free on the fifo — starting from a fifo whose write
index is 3 and read index is 1, a failing call zeroes both indices. -/
theorem kfifo_init_mutates_on_failure_ce :
    (__kfifo_init ⟨3, 1, 7, 1, zeroBuf⟩ zeroBuf 1 1).1 = -EINVAL ∧
    (⟨3, 1, 7, 1, zeroBuf⟩ : State).out_ = 1 ∧
    (__kfifo_init ⟨3, 1, 7, 1, zeroBuf⟩ zeroBuf 1 1).2.out_ = 0 ∧
    (⟨3, 1, 7, 1, zeroBuf⟩ : State).in_ = 3 ∧
    (__kfifo_init ⟨3, 1, 7, 1, zeroBuf⟩ zeroBuf 1 1).2.in_ = 0 := by decide

/-- Claim C7 (amended): `__kfifo_len_r` decodes and returns the
little-endian length header stored at the current read offset without
mutating any fifo state (it is a pure function of the state in this
embedding) — but it performs no emptiness check, so on an empty core it
returns the decode of whatever stale bytes sit at the read offset
rather than 0. -/
theorem peek_record_length_spec (f : State) (recsize : Nat)
    (hr : recsize = 1 ∨ recsize = 2) :
    __kfifo_len_r f recsize =
      (if recsize = 1 then f.data (f.out_ &&& f.mask)
       else f.data (f.out_ &&& f.mask) |||
         (f.data ((f.out_ + 1) % U32 &&& f.mask) <<< 8)) := by
  rcases hr with rfl | rfl <;>
    simp [__kfifo_len_r, __kfifo_peek_n, KFIFO_PEEK, uadd, u32]

/-- Witness for `peek_record_length_spec` on a fresh zeroed fifo. -/
theorem peek_record_length_spec_witness :
    __kfifo_len_r freshFifo8 1 = 0 := by
  have h := peek_record_length_spec freshFifo8 1 (Or.inl rfl)
  rw [h]
  decide

/-- Counterexample to claim C7 as originally stated: `staleFifo` is a
reachable empty record-mode state (`in = out = 14`) whose read offset
lands on a stale payload byte, and `__kfifo_len_r` returns 16, not 0. -/
theorem peek_record_length_empty_ce :
    staleFifo.in_ = staleFifo.out_ ∧
    __kfifo_len_r staleFifo 1 = 16 ∧
    __kfifo_len_r staleFifo 1 ≠ 0 := by decide

/-- Claim C9: `__kfifo_skip_r` performs no emptiness check: for every
state it decodes the header value at the read offset and advances the
read index by that value plus the header width, leaving the write index
and buffer untouched; in particular, on an empty fifo (`in = out`) the
occupancy afterwards is `2^32 − (value + recsize)`, which exceeds the
capacity — the read index has moved past the write index. -/
theorem skip_record_spec (f : State) (recsize : Nat)
    (hr : recsize = 1 ∨ recsize = 2)
    (h1 : f.in_ < U32) (h2 : f.out_ < U32)
    (hcap : f.mask + 1 ≤ 2147483648)
    (hbyte : ∀ i, f.data i < 256) :
    (__kfifo_skip_r f recsize).out_ =
      (f.out_ + (__kfifo_peek_n f recsize + recsize)) % U32 ∧
    (__kfifo_skip_r f recsize).in_ = f.in_ ∧
    (__kfifo_skip_r f recsize).data = f.data ∧
    (f.in_ = f.out_ →
      kfifo_len (__kfifo_skip_r f recsize) =
        U32 - (__kfifo_peek_n f recsize + recsize) ∧
      f.mask + 1 < kfifo_len (__kfifo_skip_r f recsize)) := by
  have hv : __kfifo_peek_n f recsize < 65536 := by
    rcases hr with rfl | rfl
    · simp only [__kfifo_peek_n, KFIFO_PEEK]
      norm_num
      exact Nat.lt_of_lt_of_le (hbyte _) (by norm_num)
    · simp only [__kfifo_peek_n, KFIFO_PEEK]
      norm_num
      have hb0 := hbyte (f.out_ &&& f.mask)
      have hb1 := hbyte (uadd f.out_ 1 &&& f.mask)
      have h0 : f.data (f.out_ &&& f.mask) < 2 ^ 16 := by omega
      have hsh : f.data (uadd f.out_ 1 &&& f.mask) <<< 8 < 2 ^ 16 := by
        rw [Nat.shiftLeft_eq]
        norm_num
        omega
      have hor := Nat.or_lt_two_pow h0 hsh
      norm_num at hor
      exact hor
  refine ⟨rfl, rfl, rfl, ?_⟩
  intro hempty
  have hrec : 1 ≤ recsize := by rcases hr with rfl | rfl <;> norm_num
  generalize hp : __kfifo_peek_n f recsize = p at *
  constructor
  · simp only [__kfifo_skip_r, kfifo_len, usub, uadd, u32, U32] at *
    omega
  · simp only [__kfifo_skip_r, kfifo_len, usub, uadd, u32, U32] at *
    omega

/-- Witness for `skip_record_spec`: skipping on the fresh empty fifo
moves the read index past the write index. -/
theorem skip_record_spec_witness :
    kfifo_len (__kfifo_skip_r freshFifo8 1) =
      U32 - (__kfifo_peek_n freshFifo8 1 + 1) ∧
    freshFifo8.mask + 1 < kfifo_len (__kfifo_skip_r freshFifo8 1) :=
  (skip_record_spec freshFifo8 1 (Or.inl rfl) (by decide) (by decide) (by decide)
    (fun i => by have h : freshFifo8.data i = 0 := rfl; omega)).2.2.2 rfl

/-! Helper lemmas about the wraparound copies. -/

theorem getD_take (s : List Nat) (n j d : Nat) (h : j < n) :
    (s.take n).getD j d = s.getD j d := by
  simp [List.getD_eq_getElem?_getD, List.getElem?_take_of_lt h]

theorem getD_drop (s : List Nat) (n j d : Nat) :
    (s.drop n).getD j d = s.getD (n + j) d := by
  simp [List.getD_eq_getElem?_getD, List.getElem?_drop]

theorem mod_shift_inj (a o1 o2 M : Nat) (h1 : o1 < M) (h2 : o2 < M)
    (h : (a + o1) % M = (a + o2) % M) : o1 = o2 := by
  have hmod : o1 % M = o2 % M := Nat.ModEq.add_left_cancel' a h
  rwa [Nat.mod_eq_of_lt h1, Nat.mod_eq_of_lt h2] at hmod

theorem and_mask_eq_mod (f : State) (m x : Nat) (hm : f.mask + 1 = 2 ^ m)
    (hm32 : m ≤ 32) : x % U32 &&& f.mask = x % (f.mask + 1) := by
  have hmask : f.mask = 2 ^ m - 1 := by omega
  rw [hmask, Nat.and_pow_two_sub_one_eq_mod, show U32 = 2 ^ 32 by decide,
    Nat.mod_mod_of_dvd x (Nat.pow_dvd_pow 2 hm32), ← hmask]
  congr 1
  omega

theorem circWrite_hit (d : Nat → Nat) (base LB CB : Nat) (src : List Nat)
    (hbase : base < CB) (hLB : LB ≤ CB) (hsrc : LB ≤ src.length) :
    ∀ j, j < LB → circWrite d base LB CB src ((base + j) % CB) = src.getD j 0 := by
  intro j hj
  have hl1 : min LB (CB - base) ≤ LB := Nat.min_le_left _ _
  have hl2 : min LB (CB - base) ≤ CB - base := Nat.min_le_right _ _
  have hlen1 : (src.take (min LB (CB - base))).length = min LB (CB - base) := by
    simp [List.length_take]
    omega
  have hlen2 : ((src.drop (min LB (CB - base))).take (LB - min LB (CB - base))).length
      = LB - min LB (CB - base) := by
    simp [List.length_take, List.length_drop]
    omega
  by_cases hjl : j < min LB (CB - base)
  · have hbj : base + j < CB := by omega
    rw [Nat.mod_eq_of_lt hbj]
    rw [circWrite, memwrite, memwrite]
    rw [hlen2]
    have hout : ¬ (0 ≤ base + j ∧ base + j < 0 + (LB - min LB (CB - base))) := by omega
    simp only [if_neg hout]
    rw [hlen1]
    have hin : base ≤ base + j ∧ base + j < base + min LB (CB - base) := by omega
    simp only [if_pos hin]
    rw [Nat.add_sub_cancel_left]
    exact getD_take src _ j 0 hjl
  · have hl : min LB (CB - base) = CB - base := by omega
    have hbj : base + j = CB + (j - min LB (CB - base)) := by omega
    have hjlt : j - min LB (CB - base) < CB := by omega
    rw [hbj, Nat.add_mod_left, Nat.mod_eq_of_lt hjlt]
    rw [circWrite, memwrite, memwrite]
    rw [hlen2]
    have hout : 0 ≤ j - min LB (CB - base) ∧
        j - min LB (CB - base) < 0 + (LB - min LB (CB - base)) := by omega
    simp only [if_pos hout]
    rw [Nat.sub_zero, getD_take _ _ _ _ (by omega), getD_drop]
    congr 1
    omega

theorem circWrite_miss (d : Nat → Nat) (base LB CB : Nat) (src : List Nat)
    (hbase : base < CB) (hLB : LB ≤ CB) (hsrc : LB ≤ src.length) :
    ∀ i, (∀ j, j < LB → i % CB ≠ (base + j) % CB) →
      circWrite d base LB CB src i = d i := by
  intro i hmiss
  have hl1 : min LB (CB - base) ≤ LB := Nat.min_le_left _ _
  have hl2 : min LB (CB - base) ≤ CB - base := Nat.min_le_right _ _
  have hlen1 : (src.take (min LB (CB - base))).length = min LB (CB - base) := by
    simp [List.length_take]
    omega
  have hlen2 : ((src.drop (min LB (CB - base))).take (LB - min LB (CB - base))).length
      = LB - min LB (CB - base) := by
    simp [List.length_take, List.length_drop]
    omega
  rw [circWrite, memwrite, memwrite, hlen2, hlen1]
  have hout : ¬ (0 ≤ i ∧ i < 0 + (LB - min LB (CB - base))) := by
    rintro ⟨-, hi⟩
    have hl : min LB (CB - base) = CB - base := by omega
    have hj : min LB (CB - base) + i < LB := by omega
    have heq : (base + (min LB (CB - base) + i)) % CB = i := by
      have hsum : base + (min LB (CB - base) + i) = CB + i := by omega
      rw [hsum, Nat.add_mod_left, Nat.mod_eq_of_lt (by omega)]
    exact hmiss _ hj (by rw [heq, Nat.mod_eq_of_lt (by omega)])
  simp only [if_neg hout]
  have hin : ¬ (base ≤ i ∧ i < base + min LB (CB - base)) := by
    rintro ⟨hi1, hi2⟩
    have hj : i - base < LB := by omega
    have heq : (base + (i - base)) % CB = i := by
      rw [show base + (i - base) = i by omega, Nat.mod_eq_of_lt (by omega)]
    exact hmiss _ hj (by rw [heq, Nat.mod_eq_of_lt (by omega)])
  simp only [if_neg hin]

theorem memread_length (d : Nat → Nat) (pos n : Nat) :
    (memread d pos n).length = n := by
  simp [memread]

theorem circRead_eq (d : Nat → Nat) (base LB CB : Nat)
    (hbase : base < CB) (hLB : LB ≤ CB) :
    circRead d base LB CB =
      (List.range LB).map (fun j => d ((base + j) % CB)) := by
  have hl1 : min LB (CB - base) ≤ LB := Nat.min_le_left _ _
  have hl2 : min LB (CB - base) ≤ CB - base := Nat.min_le_right _ _
  unfold circRead
  apply List.ext_getElem
  · simp only [List.length_append, memread_length, List.length_map, List.length_range]
    omega
  · intro j h1 h2
    simp only [List.length_append, memread_length] at h1
    simp only [List.getElem_map, List.getElem_range]
    by_cases hjl : j < min LB (CB - base)
    · rw [List.getElem_append_left (by rw [memread_length]; exact hjl)]
      simp only [memread, List.getElem_map, List.getElem_range]
      rw [Nat.mod_eq_of_lt (by omega)]
    · rw [List.getElem_append_right (by rw [memread_length]; omega)]
      simp only [memread, List.getElem_map, List.getElem_range, memread_length]
      have hbj : base + j = CB + (j - min LB (CB - base)) := by omega
      rw [hbj, Nat.add_mod_left, Nat.mod_eq_of_lt (by omega)]
      simp

theorem usub_sub (a b : Nat) (ha : a < U32) (hb : b ≤ a) : usub a b = a - b := by
  simp only [usub, U32] at *
  omega

theorem uadd_small (a b : Nat) (h : a + b < U32) : uadd a b = a + b := by
  simp only [uadd, U32] at *
  omega

theorem umul_small (a b : Nat) (h : a * b < U32) : umul a b = a * b := by
  simp only [umul, U32] at *
  omega

theorem copy_norm (f : State) (len off : Nat) (m : Nat)
    (hm : f.mask + 1 = 2 ^ m) (hm30 : m ≤ 30) (hes : 1 ≤ f.esize)
    (hcb : (f.mask + 1) * f.esize ≤ 2 ^ 31) (hlen : len ≤ f.mask + 1) :
    (if f.esize ≠ 1 then umul (u32 off &&& f.mask) f.esize
      else (u32 off &&& f.mask)) = off % (f.mask + 1) * f.esize ∧
    (if f.esize ≠ 1 then umul (uadd f.mask 1) f.esize else uadd f.mask 1) =
      (f.mask + 1) * f.esize ∧
    (if f.esize ≠ 1 then umul len f.esize else len) = len * f.esize := by
  have ho : u32 off &&& f.mask = off % (f.mask + 1) :=
    and_mask_eq_mod f m off hm (by omega)
  have hoS : off % (f.mask + 1) ≤ f.mask :=
    Nat.le_of_lt_succ (Nat.mod_lt off (by omega))
  have hU : (f.mask + 1) * f.esize < U32 := by
    have h31 : (2:Nat) ^ 31 < U32 := by decide
    omega
  have hcap : f.mask + 1 < U32 := by
    have hle : f.mask + 1 ≤ (f.mask + 1) * f.esize :=
      Nat.le_mul_of_pos_right _ (by omega)
    omega
  have hoff : off % (f.mask + 1) * f.esize ≤ (f.mask + 1) * f.esize :=
    Nat.mul_le_mul_right _ (by omega)
  have hlenb : len * f.esize ≤ (f.mask + 1) * f.esize :=
    Nat.mul_le_mul_right _ hlen
  refine ⟨?_, ?_, ?_⟩
  · by_cases hE : f.esize = 1
    · rw [if_neg (by simp [hE]), ho, hE, Nat.mul_one]
    · rw [if_pos hE, ho, umul_small _ _ (by omega)]
  · by_cases hE : f.esize = 1
    · rw [if_neg (by simp [hE]), uadd_small _ _ (by omega), hE, Nat.mul_one]
    · rw [if_pos hE, uadd_small _ _ (by omega), umul_small _ _ (by omega)]
  · by_cases hE : f.esize = 1
    · rw [if_neg (by simp [hE]), hE, Nat.mul_one]
    · rw [if_pos hE, umul_small _ _ (by omega)]

theorem kfifo_copy_in_eq (f : State) (src : List Nat) (len off : Nat) (m : Nat)
    (hm : f.mask + 1 = 2 ^ m) (hm30 : m ≤ 30) (hes : 1 ≤ f.esize)
    (hcb : (f.mask + 1) * f.esize ≤ 2 ^ 31) (hlen : len ≤ f.mask + 1) :
    kfifo_copy_in f src len off =
      { f with data := (circWrite f.data (off % (f.mask + 1) * f.esize)
          (len * f.esize) ((f.mask + 1) * f.esize) src) } := by
  obtain ⟨h1, h2, h3⟩ := copy_norm f len off m hm hm30 hes hcb hlen
  have hU : (f.mask + 1) * f.esize < U32 := by
    have h31 : (2:Nat) ^ 31 < U32 := by decide
    omega
  have hoff : off % (f.mask + 1) * f.esize ≤ (f.mask + 1) * f.esize :=
    Nat.mul_le_mul_right _ (Nat.le_of_lt (Nat.mod_lt off (by omega)))
  simp only [kfifo_copy_in, circWrite, h1, h2, h3]
  rw [usub_sub _ _ hU hoff]

theorem kfifo_copy_out_eq (f : State) (len off : Nat) (m : Nat)
    (hm : f.mask + 1 = 2 ^ m) (hm30 : m ≤ 30) (hes : 1 ≤ f.esize)
    (hcb : (f.mask + 1) * f.esize ≤ 2 ^ 31) (hlen : len ≤ f.mask + 1) :
    kfifo_copy_out f len off =
      circRead f.data (off % (f.mask + 1) * f.esize)
        (len * f.esize) ((f.mask + 1) * f.esize) := by
  obtain ⟨h1, h2, h3⟩ := copy_norm f len off m hm hm30 hes hcb hlen
  have hU : (f.mask + 1) * f.esize < U32 := by
    have h31 : (2:Nat) ^ 31 < U32 := by decide
    omega
  have hoff : off % (f.mask + 1) * f.esize ≤ (f.mask + 1) * f.esize :=
    Nat.mul_le_mul_right _ (Nat.le_of_lt (Nat.mod_lt off (by omega)))
  simp only [kfifo_copy_out, circRead, h1, h2, h3]
  rw [usub_sub _ _ hU hoff]

theorem kfifo_unused_eq (f : State) (h1 : f.in_ < U32) (h2 : f.out_ < U32)
    (hcap : f.mask + 1 ≤ 2147483648) (hocc : kfifo_len f ≤ f.mask + 1) :
    kfifo_unused f = (f.mask + 1) - kfifo_len f := by
  simp only [kfifo_unused, kfifo_len, usub, uadd, u32, U32] at *
  omega

theorem in_out_spec (f : State) (buf : List Nat) (lenIn lenOut m : Nat)
    (h1 : f.in_ < U32) (h2 : f.out_ < U32)
    (hm : f.mask + 1 = 2 ^ m) (hm30 : m ≤ 30)
    (hes : 1 ≤ f.esize) (hcb : (f.mask + 1) * f.esize ≤ 2 ^ 31)
    (hocc : kfifo_len f ≤ f.mask + 1)
    (hbuf : min lenIn (kfifo_unused f) * f.esize ≤ buf.length) :
    (__kfifo_in f buf lenIn).1 = min lenIn (kfifo_unused f) ∧
    (__kfifo_in f buf lenIn).2.in_ =
      (f.in_ + min lenIn (kfifo_unused f)) % U32 ∧
    (__kfifo_in f buf lenIn).2.out_ = f.out_ ∧
    (∀ j, j < min lenIn (kfifo_unused f) * f.esize →
      (__kfifo_in f buf lenIn).2.data
        ((f.in_ % (f.mask + 1) * f.esize + j) % ((f.mask + 1) * f.esize)) =
        buf.getD j 0) ∧
    (∀ i, (∀ j, j < min lenIn (kfifo_unused f) * f.esize →
        i % ((f.mask + 1) * f.esize) ≠
          (f.in_ % (f.mask + 1) * f.esize + j) % ((f.mask + 1) * f.esize)) →
      (__kfifo_in f buf lenIn).2.data i = f.data i) ∧
    (__kfifo_out f lenOut).1 = min lenOut (kfifo_len f) ∧
    (__kfifo_out f lenOut).2.1 =
      (List.range (min lenOut (kfifo_len f) * f.esize)).map
        (fun j => f.data
          ((f.out_ % (f.mask + 1) * f.esize + j) % ((f.mask + 1) * f.esize))) ∧
    (__kfifo_out f lenOut).2.2.out_ =
      (f.out_ + min lenOut (kfifo_len f)) % U32 ∧
    (__kfifo_out f lenOut).2.2.in_ = f.in_ ∧
    (__kfifo_out f lenOut).2.2.data = f.data := by
  have hcaple : f.mask + 1 ≤ 2147483648 := by
    have hp : (2:Nat) ^ m ≤ 2 ^ 30 := Nat.pow_le_pow_right (by norm_num) hm30
    have : (2:Nat) ^ 30 ≤ 2147483648 := by norm_num
    omega
  have hun : kfifo_unused f = (f.mask + 1) - kfifo_len f :=
    kfifo_unused_eq f h1 h2 hcaple hocc
  have hS : 0 < f.mask + 1 := by omega
  have hCB : 0 < (f.mask + 1) * f.esize := by positivity
  have hbasein : f.in_ % (f.mask + 1) * f.esize < (f.mask + 1) * f.esize := by
    have hlt : f.in_ % (f.mask + 1) ≤ f.mask := Nat.le_of_lt_succ (Nat.mod_lt _ hS)
    have hmm : f.mask * f.esize + f.esize = (f.mask + 1) * f.esize := by ring
    have := Nat.mul_le_mul_right f.esize hlt
    omega
  have hbaseout : f.out_ % (f.mask + 1) * f.esize < (f.mask + 1) * f.esize := by
    have hlt : f.out_ % (f.mask + 1) ≤ f.mask := Nat.le_of_lt_succ (Nat.mod_lt _ hS)
    have hmm : f.mask * f.esize + f.esize = (f.mask + 1) * f.esize := by ring
    have := Nat.mul_le_mul_right f.esize hlt
    omega
  -- enqueue side
  have hnIn : (if lenIn > kfifo_unused f then kfifo_unused f else lenIn) =
      min lenIn (kfifo_unused f) := by
    rcases Nat.lt_or_ge (kfifo_unused f) lenIn with h | h
    · rw [if_pos h, min_eq_right (Nat.le_of_lt h)]
    · rw [if_neg (by omega), min_eq_left h]
  have hnle : min lenIn (kfifo_unused f) ≤ f.mask + 1 :=
    Nat.le_trans (min_le_right _ _) (by omega)
  have hinEq : __kfifo_in f buf lenIn =
      (min lenIn (kfifo_unused f),
        { f with
          data := (circWrite f.data (f.in_ % (f.mask + 1) * f.esize)
            (min lenIn (kfifo_unused f) * f.esize) ((f.mask + 1) * f.esize) buf),
          in_ := (f.in_ + min lenIn (kfifo_unused f)) % U32 }) := by
    simp only [__kfifo_in, hnIn]
    rw [kfifo_copy_in_eq f buf _ f.in_ m hm hm30 hes hcb hnle]
    rfl
  -- dequeue side
  have hnOut : (if lenOut > usub f.in_ f.out_ then usub f.in_ f.out_ else lenOut) =
      min lenOut (usub f.in_ f.out_) := by
    rcases Nat.lt_or_ge (usub f.in_ f.out_) lenOut with h | h
    · rw [if_pos h, min_eq_right (Nat.le_of_lt h)]
    · rw [if_neg (by omega), min_eq_left h]
  have hnleO : min lenOut (kfifo_len f) ≤ f.mask + 1 :=
    Nat.le_trans (min_le_right _ _) hocc
  have houtEq : __kfifo_out f lenOut =
      (min lenOut (kfifo_len f),
        circRead f.data (f.out_ % (f.mask + 1) * f.esize)
          (min lenOut (kfifo_len f) * f.esize) ((f.mask + 1) * f.esize),
        { f with out_ := (f.out_ + min lenOut (kfifo_len f)) % U32 }) := by
    simp only [__kfifo_out, __kfifo_out_peek, kfifo_len]
    rw [hnOut]
    rw [kfifo_copy_out_eq f _ f.out_ m hm hm30 hes hcb (by simpa [kfifo_len] using hnleO)]
    rfl
  rw [hinEq, houtEq]
  have hLBin : min lenIn (kfifo_unused f) * f.esize ≤ (f.mask + 1) * f.esize :=
    Nat.mul_le_mul_right _ hnle
  have hLBout : min lenOut (kfifo_len f) * f.esize ≤ (f.mask + 1) * f.esize :=
    Nat.mul_le_mul_right _ hnleO
  refine ⟨rfl, rfl, rfl, ?_, ?_, rfl, ?_, rfl, rfl, rfl⟩
  · exact circWrite_hit f.data _ _ _ buf hbasein hLBin hbuf
  · exact circWrite_miss f.data _ _ _ buf hbasein hLBin hbuf
  · exact circRead_eq f.data _ _ _ hbaseout hLBout


/-- Claim C2: `__kfifo_in` transfers exactly `n = min(requested, unused)`
elements — it writes the first `n * esize` bytes of the source at
consecutive circular byte addresses starting at `(write_index mod
capacity) * esize` (the physical offset `write_index & mask`), leaves
every other byte untouched, advances the write index by `n` (mod 2^32),
and returns `n`; symmetrically `__kfifo_out` transfers exactly
`n = min(requested, occupancy)` elements read from consecutive circular
byte addresses starting at `(read_index mod capacity) * esize`, advances
the read index by `n`, and returns `n`. -/
theorem enqueue_dequeue_spec (f : State) (buf : List Nat) (lenIn lenOut m : Nat)
    (h1 : f.in_ < U32) (h2 : f.out_ < U32)
    (hm : f.mask + 1 = 2 ^ m) (hm30 : m ≤ 30)
    (hes : 1 ≤ f.esize) (hcb : (f.mask + 1) * f.esize ≤ 2 ^ 31)
    (hocc : kfifo_len f ≤ f.mask + 1)
    (hbuf : min lenIn (kfifo_unused f) * f.esize ≤ buf.length) :
    (__kfifo_in f buf lenIn).1 = min lenIn (kfifo_unused f) ∧
    (__kfifo_in f buf lenIn).2.in_ =
      (f.in_ + min lenIn (kfifo_unused f)) % U32 ∧
    (__kfifo_in f buf lenIn).2.out_ = f.out_ ∧
    (∀ j, j < min lenIn (kfifo_unused f) * f.esize →
      (__kfifo_in f buf lenIn).2.data
        ((f.in_ % (f.mask + 1) * f.esize + j) % ((f.mask + 1) * f.esize)) =
        buf.getD j 0) ∧
    (∀ i, (∀ j, j < min lenIn (kfifo_unused f) * f.esize →
        i % ((f.mask + 1) * f.esize) ≠
          (f.in_ % (f.mask + 1) * f.esize + j) % ((f.mask + 1) * f.esize)) →
      (__kfifo_in f buf lenIn).2.data i = f.data i) ∧
    (__kfifo_out f lenOut).1 = min lenOut (kfifo_len f) ∧
    (__kfifo_out f lenOut).2.1 =
      (List.range (min lenOut (kfifo_len f) * f.esize)).map
        (fun j => f.data
          ((f.out_ % (f.mask + 1) * f.esize + j) % ((f.mask + 1) * f.esize))) ∧
    (__kfifo_out f lenOut).2.2.out_ =
      (f.out_ + min lenOut (kfifo_len f)) % U32 ∧
    (__kfifo_out f lenOut).2.2.in_ = f.in_ ∧
    (__kfifo_out f lenOut).2.2.data = f.data :=
  in_out_spec f buf lenIn lenOut m h1 h2 hm hm30 hes hcb hocc hbuf

/-- Witness for `enqueue_dequeue_spec` on a fresh capacity-8 byte fifo. -/
theorem enqueue_dequeue_spec_witness :
    (__kfifo_in freshFifo8 [5, 6, 7] 3).1 = min 3 (kfifo_unused freshFifo8) ∧
    (__kfifo_out freshFifo8 2).1 = min 2 (kfifo_len freshFifo8) :=
  ⟨(enqueue_dequeue_spec freshFifo8 [5, 6, 7] 3 2 3 (by decide) (by decide)
      (by decide) (by decide) (by decide) (by decide) (by decide) (by decide)).1,
   (enqueue_dequeue_spec freshFifo8 [5, 6, 7] 3 2 3 (by decide) (by decide)
      (by decide) (by decide) (by decide) (by decide) (by decide) (by decide)).2.2.2.2.2.1⟩

theorem byteContents_length (f : State) :
    (byteContents f).length = kfifo_len f * f.esize := by
  simp [byteContents]

theorem kfifo_len_zero_of_empty (f : State) (h : f.in_ = f.out_) :
    kfifo_len f = 0 := by
  simp only [kfifo_len, usub, u32, U32, h]
  omega

theorem pos_congr (x j S E : Nat) (hS : 0 < S) :
    (x % S * E + j) % (S * E) = (x * E + j) % (S * E) := by
  have hx : x * E + j = S * E * (x / S) + (x % S * E + j) := by
    calc x * E + j = (S * (x / S) + x % S) * E + j := by rw [Nat.div_add_mod]
      _ = S * E * (x / S) + (x % S * E + j) := by ring
  rw [hx, Nat.mul_add_mod]

theorem mod_u32_mod (f : State) (m x : Nat) (hm : f.mask + 1 = 2 ^ m)
    (hm32 : m ≤ 32) : x % U32 % (f.mask + 1) = x % (f.mask + 1) := by
  rw [hm, show U32 = 2 ^ 32 by decide, Nat.mod_mod_of_dvd x (Nat.pow_dvd_pow 2 hm32)]

theorem getD_eq_getElem (l : List Nat) (j : Nat) (h : j < l.length) :
    l.getD j 0 = l[j] := by
  simp [List.getD_eq_getElem?_getD, List.getElem?_eq_getElem h]

/-- Occupancy-based congruence: the write position equals read base plus
occupancy offset, modulo the byte capacity. -/
theorem in_pos_eq (f : State) (m j : Nat) (hm : f.mask + 1 = 2 ^ m) (hm30 : m ≤ 30)
    (h1 : f.in_ < U32) (h2 : f.out_ < U32) :
    (f.in_ % (f.mask + 1) * f.esize + j) % ((f.mask + 1) * f.esize) =
    (f.out_ * f.esize + (kfifo_len f * f.esize + j)) % ((f.mask + 1) * f.esize) := by
  have hS : 0 < f.mask + 1 := by positivity
  rw [pos_congr _ _ _ _ hS]
  have hin : (f.out_ + kfifo_len f) % U32 = f.in_ := by
    simp only [kfifo_len, usub, u32, U32] at *
    omega
  have hmodeq : (f.out_ + kfifo_len f) * f.esize ≡ f.in_ * f.esize
      [MOD (f.mask + 1) * f.esize] := by
    have h32 : (f.out_ + kfifo_len f) ≡ f.in_ [MOD U32] := by
      unfold Nat.ModEq
      rw [hin]
      exact (Nat.mod_eq_of_lt h1).symm
    have hmul : (f.out_ + kfifo_len f) * f.esize ≡ f.in_ * f.esize
        [MOD U32 * f.esize] := Nat.ModEq.mul_right' f.esize h32
    exact Nat.ModEq.of_dvd
      (by
        rw [hm, show U32 = 2 ^ 32 by decide]
        exact Nat.mul_dvd_mul_right (Nat.pow_dvd_pow 2 (by omega)) f.esize) hmul
  have hfin := (hmodeq.add_right j).symm
  unfold Nat.ModEq at hfin
  rw [show f.out_ * f.esize + (kfifo_len f * f.esize + j) =
    (f.out_ + kfifo_len f) * f.esize + j by ring]
  exact hfin

theorem in_fields (f : State) (buf : List Nat) (len : Nat) :
    (__kfifo_in f buf len).2.esize = f.esize ∧
    (__kfifo_in f buf len).2.mask = f.mask := by
  simp [__kfifo_in, kfifo_copy_in]

theorem in_contents (f : State) (buf : List Nat) (len m : Nat)
    (hInv : Inv f m)
    (hacc : len ≤ kfifo_unused f)
    (hbuf : buf.length = len * f.esize) :
    (__kfifo_in f buf len).1 = len ∧
    Inv (__kfifo_in f buf len).2 m ∧
    (__kfifo_in f buf len).2.esize = f.esize ∧
    (__kfifo_in f buf len).2.mask = f.mask ∧
    kfifo_len (__kfifo_in f buf len).2 = kfifo_len f + len ∧
    byteContents (__kfifo_in f buf len).2 = byteContents f ++ buf := by
  obtain ⟨h1, h2, hm, hm30, hes, hcb, hocc⟩ := hInv
  have hcaple : f.mask + 1 ≤ 2147483648 := by
    have hp : (2:Nat) ^ m ≤ 2 ^ 30 := Nat.pow_le_pow_right (by norm_num) hm30
    have h30 : (2:Nat) ^ 30 ≤ 2147483648 := by norm_num
    omega
  have hun : kfifo_unused f = (f.mask + 1) - kfifo_len f :=
    kfifo_unused_eq f h1 h2 hcaple hocc
  have hmin : min len (kfifo_unused f) = len := min_eq_left hacc
  obtain ⟨r1, r2, r3, rhit, rmiss, -, -, -, -, -⟩ :=
    in_out_spec f buf len 0 m h1 h2 hm hm30 hes hcb hocc
      (by rw [hmin, ← hbuf])
  rw [hmin] at r1 r2 rhit rmiss
  obtain ⟨hesz, hmsk⟩ := in_fields f buf len
  have hCB : 0 < (f.mask + 1) * f.esize := by positivity
  have hS : 0 < f.mask + 1 := by positivity
  have hoccE : kfifo_len f * f.esize ≤ (f.mask + 1) * f.esize :=
    Nat.mul_le_mul_right _ hocc
  have hsumE : (kfifo_len f + len) * f.esize ≤ (f.mask + 1) * f.esize :=
    Nat.mul_le_mul_right _ (by omega)
  have hlen' : kfifo_len (__kfifo_in f buf len).2 = kfifo_len f + len := by
    simp only [kfifo_len, r2, r3]
    simp only [kfifo_len, usub, u32, U32] at *
    omega
  refine ⟨r1, ?_, hesz, hmsk, hlen', ?_⟩
  · refine ⟨?_, ?_, ?_, hm30, ?_, ?_, ?_⟩
    · rw [r2]
      exact Nat.mod_lt _ (by decide)
    · rw [r3]
      exact h2
    · rw [hmsk]
      exact hm
    · rw [hesz]
      exact hes
    · rw [hmsk, hesz]
      exact hcb
    · rw [hlen', hmsk]
      omega
  · have hcts : byteContents (__kfifo_in f buf len).2 =
        (List.range ((kfifo_len f + len) * f.esize)).map
          (fun j => (__kfifo_in f buf len).2.data
            ((f.out_ % (f.mask + 1) * f.esize + j) % ((f.mask + 1) * f.esize))) := by
      unfold byteContents
      rw [hlen', hesz, hmsk, r3]
    rw [hcts]
    apply List.ext_getElem
    · simp only [List.length_map, List.length_range, List.length_append,
        byteContents_length, hbuf]
      ring
    · intro j hj1 hj2
      simp only [List.getElem_map, List.getElem_range]
      have hjlt : j < (kfifo_len f + len) * f.esize := by
        simpa using hj1
      by_cases hj : j < kfifo_len f * f.esize
      · rw [List.getElem_append_left (by rw [byteContents_length]; exact hj)]
        simp only [byteContents, List.getElem_map, List.getElem_range]
        apply rmiss
        intro j' hj'
        rw [Nat.mod_eq_of_lt (Nat.mod_lt _ hCB)]
        rw [pos_congr _ _ _ _ hS, in_pos_eq f m j' hm hm30 h1 h2]
        intro heq
        have hj2' : kfifo_len f * f.esize + j' < (f.mask + 1) * f.esize := by
          have : kfifo_len f * f.esize + j' < (kfifo_len f + len) * f.esize := by
            have := Nat.add_mul (kfifo_len f) len f.esize
            omega
          omega
        have := mod_shift_inj (f.out_ * f.esize) j (kfifo_len f * f.esize + j')
          ((f.mask + 1) * f.esize) (by omega) hj2' heq
        omega
      · have hjge : kfifo_len f * f.esize ≤ j := by omega
        have hj' : j - kfifo_len f * f.esize < len * f.esize := by
          have := Nat.add_mul (kfifo_len f) len f.esize
          omega
        have hpos : (f.out_ % (f.mask + 1) * f.esize + j) % ((f.mask + 1) * f.esize) =
            (f.in_ % (f.mask + 1) * f.esize + (j - kfifo_len f * f.esize)) %
              ((f.mask + 1) * f.esize) := by
          rw [pos_congr _ _ _ _ hS, in_pos_eq f m _ hm hm30 h1 h2]
          congr 1
          omega
        rw [hpos, rhit _ hj']
        rw [List.getElem_append_right (by rw [byteContents_length]; exact hjge)]
        have hblen : j - (byteContents f).length < buf.length := by
          rw [byteContents_length, hbuf]
          exact hj'
        rw [getD_eq_getElem buf _ (by rw [hbuf]; exact hj')]
        congr 1
        rw [byteContents_length]

theorem out_fields (f : State) (len : Nat) :
    (__kfifo_out f len).2.2.esize = f.esize ∧
    (__kfifo_out f len).2.2.mask = f.mask ∧
    (__kfifo_out f len).2.2.in_ = f.in_ ∧
    (__kfifo_out f len).2.2.data = f.data := by
  simp [__kfifo_out, __kfifo_out_peek]

theorem out_contents (f : State) (len m : Nat) (hInv : Inv f m) :
    (__kfifo_out f len).1 = min len (kfifo_len f) ∧
    Inv (__kfifo_out f len).2.2 m ∧
    (__kfifo_out f len).2.2.esize = f.esize ∧
    (__kfifo_out f len).2.2.mask = f.mask ∧
    (__kfifo_out f len).2.2.in_ = f.in_ ∧
    kfifo_len (__kfifo_out f len).2.2 = kfifo_len f - len ∧
    (__kfifo_out f len).2.1 ++ byteContents (__kfifo_out f len).2.2 =
      byteContents f := by
  obtain ⟨h1, h2, hm, hm30, hes, hcb, hocc⟩ := hInv
  obtain ⟨hesz, hmsk, hfin, hfdata⟩ := out_fields f len
  obtain ⟨-, -, -, -, -, r6, r7, r8, -, -⟩ :=
    in_out_spec f [] 0 len m h1 h2 hm hm30 hes hcb hocc (by simp)
  have hS : 0 < f.mask + 1 := by positivity
  have hCB : 0 < (f.mask + 1) * f.esize := by positivity
  have hk1 : min len (kfifo_len f) ≤ kfifo_len f := min_le_right _ _
  have hlenmin : kfifo_len (__kfifo_out f len).2.2 =
      kfifo_len f - min len (kfifo_len f) := by
    have hcalc : usub f.in_ ((f.out_ + min len (kfifo_len f)) % U32) =
        kfifo_len f - min len (kfifo_len f) := by
      generalize hkg : min len (kfifo_len f) = k at hk1 ⊢
      simp only [kfifo_len, usub, u32, U32] at *
      omega
    calc kfifo_len (__kfifo_out f len).2.2
        = usub (__kfifo_out f len).2.2.in_ (__kfifo_out f len).2.2.out_ := rfl
      _ = usub f.in_ ((f.out_ + min len (kfifo_len f)) % U32) := by rw [hfin, r8]
      _ = kfifo_len f - min len (kfifo_len f) := hcalc
  have hlen' : kfifo_len (__kfifo_out f len).2.2 = kfifo_len f - len := by
    rw [hlenmin]
    rcases Nat.le_total len (kfifo_len f) with h | h
    · rw [min_eq_left h]
    · rw [min_eq_right h]
      omega
  refine ⟨r6, ?_, hesz, hmsk, hfin, hlen', ?_⟩
  · refine ⟨?_, ?_, ?_, hm30, ?_, ?_, ?_⟩
    · rw [hfin]
      exact h1
    · rw [r8]
      exact Nat.mod_lt _ (by decide)
    · rw [hmsk]
      exact hm
    · rw [hesz]
      exact hes
    · rw [hmsk, hesz]
      exact hcb
    · rw [hlen', hmsk]
      omega
  · have hcts : byteContents (__kfifo_out f len).2.2 =
        (List.range ((kfifo_len f - min len (kfifo_len f)) * f.esize)).map
          (fun j => f.data
            (((f.out_ + min len (kfifo_len f)) % U32 % (f.mask + 1) * f.esize + j) %
              ((f.mask + 1) * f.esize))) := by
      unfold byteContents
      rw [hlenmin, hesz, hmsk, r8, hfdata]
    rw [hcts, r7]
    apply List.ext_getElem
    · simp only [List.length_append, List.length_map, List.length_range,
        byteContents_length]
      have := Nat.sub_mul (kfifo_len f) (min len (kfifo_len f)) f.esize
      have := Nat.mul_le_mul_right f.esize hk1
      omega
    · intro j hj1 hj2
      have hjocc : j < kfifo_len f * f.esize := by
        simpa [byteContents_length] using hj2
      by_cases hj : j < min len (kfifo_len f) * f.esize
      · rw [List.getElem_append_left (by simp only [List.length_map, List.length_range]; exact hj)]
        simp only [List.getElem_map, List.getElem_range, byteContents]
      · rw [List.getElem_append_right (by simp only [List.length_map, List.length_range]; omega)]
        simp only [List.getElem_map, List.getElem_range, List.length_map,
          List.length_range, byteContents]
        rw [mod_u32_mod f m _ hm (by omega), pos_congr _ _ _ _ hS,
          pos_congr _ _ _ _ hS]
        have harg : (f.out_ + min len (kfifo_len f)) * f.esize +
            (j - min len (kfifo_len f) * f.esize) = f.out_ * f.esize + j := by
          have hd := Nat.add_mul f.out_ (min len (kfifo_len f)) f.esize
          have hkE := Nat.mul_le_mul_right f.esize hk1
          omega
        rw [harg]
theorem enqSeq_contents (bufs : List (List Nat)) : ∀ (f : State) (m : Nat),
    Inv f m → (∀ b ∈ bufs, f.esize ∣ b.length) → acceptedSeq f bufs = true →
    Inv (enqSeq f bufs) m ∧
    (enqSeq f bufs).esize = f.esize ∧
    byteContents (enqSeq f bufs) = byteContents f ++ bufs.join := by
  induction bufs with
  | nil =>
    intro f m hInv hdvd hacc
    exact ⟨hInv, rfl, by simp [enqSeq]⟩
  | cons b bs ih =>
    intro f m hInv hdvd hacc
    simp only [acceptedSeq, Bool.and_eq_true, decide_eq_true_eq] at hacc
    obtain ⟨hacc1, haccs⟩ := hacc
    have hb : f.esize ∣ b.length := hdvd b (List.mem_cons_self b bs)
    have hblen : b.length = b.length / f.esize * f.esize :=
      (Nat.div_mul_cancel hb).symm
    obtain ⟨r1, rInv, resz, rmsk, rlen, rcts⟩ :=
      in_contents f b (b.length / f.esize) m ⟨hInv.1, hInv.2.1, hInv.2.2.1,
        hInv.2.2.2.1, hInv.2.2.2.2.1, hInv.2.2.2.2.2.1, hInv.2.2.2.2.2.2⟩
        hacc1 hblen
    obtain ⟨iInv, iesz, icts⟩ := ih (__kfifo_in f b (b.length / f.esize)).2 m rInv
      (by
        intro b' hb'
        rw [resz]
        exact hdvd b' (List.mem_cons_of_mem b hb'))
      haccs
    simp only [enqSeq]
    refine ⟨iInv, by rw [iesz, resz], ?_⟩
    rw [icts, rcts, List.append_assoc]
    simp

theorem deqSeq_contents (ns : List Nat) : ∀ (f : State) (m : Nat), Inv f m →
    Inv (deqSeq f ns).2 m ∧
    kfifo_len (deqSeq f ns).2 = kfifo_len f - ns.sum ∧
    (deqSeq f ns).1 ++ byteContents (deqSeq f ns).2 = byteContents f := by
  induction ns with
  | nil =>
    intro f m hInv
    simp only [deqSeq, List.sum_nil]
    exact ⟨hInv, by omega, by simp⟩
  | cons n ns ih =>
    intro f m hInv
    obtain ⟨-, oInv, -, -, -, olen, octs⟩ := out_contents f n m hInv
    obtain ⟨iInv, ilen, icts⟩ := ih (__kfifo_out f n).2.2 m oInv
    simp only [deqSeq]
    refine ⟨iInv, ?_, ?_⟩
    · rw [ilen, olen, List.sum_cons]
      omega
    · rw [List.append_assoc, icts, octs]

/-- Claim C3: starting from an empty initialized byte/element-mode fifo,
any sequence of fully accepted enqueue calls followed by any sequence of
dequeue calls whose requested counts drain the fifo returns exactly the
enqueued bytes, in order and with the same values.  The proof goes
through the per-operation lemmas `in_contents` and `out_contents`, which
characterise the two-segment wraparound copies of `kfifo_copy_in` and
`kfifo_copy_out` on the circular byte contents, so wrapping transfers
are covered. -/
theorem fifo_round_trip (f0 : State) (m : Nat) (bufs : List (List Nat))
    (ns : List Nat)
    (hInv : Inv f0 m) (hempty : f0.in_ = f0.out_)
    (hdvd : ∀ b ∈ bufs, f0.esize ∣ b.length)
    (hacc : acceptedSeq f0 bufs = true)
    (hdrain : kfifo_len (enqSeq f0 bufs) ≤ ns.sum) :
    (deqSeq (enqSeq f0 bufs) ns).1 = bufs.join := by
  obtain ⟨eInv, eesz, ects⟩ := enqSeq_contents bufs f0 m hInv hdvd hacc
  have h0 : kfifo_len f0 = 0 := kfifo_len_zero_of_empty f0 hempty
  have hcts0 : byteContents f0 = [] := by
    have hl := byteContents_length f0
    rw [h0] at hl
    exact List.eq_nil_of_length_eq_zero (by simp [hl])
  obtain ⟨dInv, dlen, dcts⟩ := deqSeq_contents ns (enqSeq f0 bufs) m eInv
  have hfinlen : kfifo_len (deqSeq (enqSeq f0 bufs) ns).2 = 0 := by omega
  have hfincts : byteContents (deqSeq (enqSeq f0 bufs) ns).2 = [] := by
    have hl := byteContents_length (deqSeq (enqSeq f0 bufs) ns).2
    rw [hfinlen] at hl
    exact List.eq_nil_of_length_eq_zero (by simp [hl])
  have hfin := dcts
  rw [hfincts, List.append_nil, ects, hcts0, List.nil_append] at hfin
  exact hfin

/-- Witness for `fifo_round_trip`: two buffers enqueued into a fresh
capacity-8 fifo and drained with one dequeue of 5 elements. -/
theorem fifo_round_trip_witness :
    (deqSeq (enqSeq freshFifo8 [[1, 2], [3, 4, 5]]) [5]).1 =
      ([[1, 2], [3, 4, 5]] : List (List Nat)).join :=
  fifo_round_trip freshFifo8 3 [[1, 2], [3, 4, 5]] [5]
    (by unfold Inv; decide) (by decide) (by decide) (by decide) (by decide)


theorem and_mask_eq_mod' (f : State) (m x : Nat) (hm : f.mask + 1 = 2 ^ m) :
    x &&& f.mask = x % (f.mask + 1) := by
  have hmask : f.mask = 2 ^ m - 1 := by omega
  rw [hmask, Nat.and_pow_two_sub_one_eq_mod]
  congr 1
  omega

theorem pos_congr1 (x j S : Nat) : (x % S + j) % S = (x + j) % S :=
  (Nat.mod_modEq x S).add_right j

theorem poke_fields (f : State) (n recsize : Nat) :
    (__kfifo_poke_n f n recsize).in_ = f.in_ ∧
    (__kfifo_poke_n f n recsize).out_ = f.out_ ∧
    (__kfifo_poke_n f n recsize).mask = f.mask ∧
    (__kfifo_poke_n f n recsize).esize = f.esize := by
  simp [__kfifo_poke_n]

/-- The header byte(s) stored by `__kfifo_poke_n` and the bytes it leaves
unchanged, for header widths 1 and 2. -/
theorem poke_spec (f : State) (n recsize m : Nat)
    (hr : recsize = 1 ∨ recsize = 2)
    (h1 : f.in_ < U32)
    (hm : f.mask + 1 = 2 ^ m) (hm1 : 1 ≤ m) (hm30 : m ≤ 30) :
    (__kfifo_poke_n f n recsize).data (f.in_ % (f.mask + 1)) = n % 256 ∧
    (recsize = 2 →
      (__kfifo_poke_n f n recsize).data ((f.in_ + 1) % (f.mask + 1)) =
        (n >>> 8) % 256) ∧
    (∀ i, i ≠ f.in_ % (f.mask + 1) →
      (recsize = 2 → i ≠ (f.in_ + 1) % (f.mask + 1)) →
      (__kfifo_poke_n f n recsize).data i = f.data i) := by
  have hS2 : 2 ≤ f.mask + 1 := by
    have : (2:Nat) ^ 1 ≤ 2 ^ m := Nat.pow_le_pow_right (by norm_num) hm1
    omega
  have hin : f.in_ &&& f.mask = f.in_ % (f.mask + 1) := and_mask_eq_mod' f m _ hm
  have hin1 : uadd f.in_ 1 &&& f.mask = (f.in_ + 1) % (f.mask + 1) := by
    rw [and_mask_eq_mod' f m _ hm]
    exact mod_u32_mod f m _ hm (by omega)
  have hne : f.in_ % (f.mask + 1) ≠ (f.in_ + 1) % (f.mask + 1) := by
    intro heq
    have := mod_shift_inj f.in_ 0 1 (f.mask + 1) (by omega) (by omega)
      (by simpa using heq)
    omega
  rcases hr with rfl | rfl
  · simp only [__kfifo_poke_n, show ¬ ((1:Nat) > 1) by omega, if_neg,
      ite_false, KFIFO_POKE, hin]
    refine ⟨by simp, by omega, ?_⟩
    intro i hi _
    simp [hi]
  · simp only [__kfifo_poke_n, show (2:Nat) > 1 by omega, ite_true,
      KFIFO_POKE, hin, hin1]
    refine ⟨?_, ?_, ?_⟩
    · rw [if_neg hne]
    · intro _
      simp
    · intro i hi hi2
      rw [if_neg (hi2 trivial), if_neg hi]


/-- Accept branch of `__kfifo_in_r` for byte-mode record fifos: returns
`len`, advances the write index by `len + recsize` in one step, writes
the little-endian header at the write offset and the payload right after
it, and touches no other byte. -/
theorem in_r_accept (f : State) (buf : List Nat) (len recsize m : Nat)
    (hr : recsize = 1 ∨ recsize = 2)
    (h1 : f.in_ < U32) (h2 : f.out_ < U32)
    (hm : f.mask + 1 = 2 ^ m) (hm1 : 1 ≤ m) (hm30 : m ≤ 30)
    (hes : f.esize = 1)
    (hocc : kfifo_len f ≤ f.mask + 1)
    (hbuf : len ≤ buf.length)
    (hfit : len + recsize ≤ kfifo_unused f) :
    (__kfifo_in_r f buf len recsize).1 = len ∧
    (__kfifo_in_r f buf len recsize).2.in_ = (f.in_ + (len + recsize)) % U32 ∧
    (__kfifo_in_r f buf len recsize).2.out_ = f.out_ ∧
    (__kfifo_in_r f buf len recsize).2.mask = f.mask ∧
    (__kfifo_in_r f buf len recsize).2.esize = f.esize ∧
    (__kfifo_in_r f buf len recsize).2.data (f.in_ % (f.mask + 1)) = len % 256 ∧
    (recsize = 2 →
      (__kfifo_in_r f buf len recsize).2.data ((f.in_ + 1) % (f.mask + 1)) =
        (len >>> 8) % 256) ∧
    (∀ j, j < len →
      (__kfifo_in_r f buf len recsize).2.data ((f.in_ + recsize + j) % (f.mask + 1)) =
        buf.getD j 0) ∧
    (∀ i, (∀ j, j < len + recsize →
        i % (f.mask + 1) ≠ (f.in_ + j) % (f.mask + 1)) →
      (__kfifo_in_r f buf len recsize).2.data i = f.data i) := by
  have hcaple : f.mask + 1 ≤ 2147483648 := by
    have hp : (2:Nat) ^ m ≤ 2 ^ 30 := Nat.pow_le_pow_right (by norm_num) hm30
    have h30 : (2:Nat) ^ 30 ≤ 2147483648 := by norm_num
    omega
  have hun : kfifo_unused f = (f.mask + 1) - kfifo_len f :=
    kfifo_unused_eq f h1 h2 hcaple hocc
  have hS : 0 < f.mask + 1 := by omega
  have hlenS : len + recsize ≤ f.mask + 1 := by omega
  have hif : ¬ (len + recsize > kfifo_unused f) := by omega
  have hrec1 : 1 ≤ recsize := by rcases hr with rfl | rfl <;> omega
  obtain ⟨hpi, hpo, hpm, hpe⟩ := poke_fields f len recsize
  obtain ⟨hh0, hh1, hhmiss⟩ := poke_spec f len recsize m hr h1 hm hm1 hm30
  set P := __kfifo_poke_n f len recsize with hP
  have hPm : P.mask + 1 = 2 ^ m := by rw [hpm]; exact hm
  have hPe1 : (1:Nat) ≤ P.esize := by rw [hpe, hes]
  have hPcb : (P.mask + 1) * P.esize ≤ 2 ^ 31 := by
    rw [hpm, hpe, hes, Nat.mul_one]
    omega
  have hClen : len ≤ P.mask + 1 := by rw [hpm]; omega
  have hC := kfifo_copy_in_eq P buf len (P.in_ + recsize) m hPm hm30 hPe1 hPcb hClen
  have hgoal : __kfifo_in_r f buf len recsize =
      (len, { P with
        data := (circWrite P.data ((P.in_ + recsize) % (P.mask + 1) * P.esize)
          (len * P.esize) ((P.mask + 1) * P.esize) buf),
        in_ := (P.in_ + (len + recsize)) % U32 }) := by
    simp only [__kfifo_in_r, if_neg hif, ← hP, hC]
    rfl
  have hbase : (f.in_ + recsize) % (f.mask + 1) < f.mask + 1 := Nat.mod_lt _ hS
  have hLB : len ≤ f.mask + 1 := by omega
  have hW : ∀ i, (∀ j, j < len →
        i % (f.mask + 1) ≠ ((f.in_ + recsize) % (f.mask + 1) + j) % (f.mask + 1)) →
      circWrite P.data ((f.in_ + recsize) % (f.mask + 1)) len (f.mask + 1) buf i =
        P.data i :=
    circWrite_miss P.data _ _ _ buf hbase hLB hbuf
  have hWhit : ∀ j, j < len →
      circWrite P.data ((f.in_ + recsize) % (f.mask + 1)) len (f.mask + 1) buf
        (((f.in_ + recsize) % (f.mask + 1) + j) % (f.mask + 1)) = buf.getD j 0 :=
    circWrite_hit P.data _ _ _ buf hbase hLB hbuf
  rw [hgoal]
  simp only [hpi, hpo, hpm, hpe, hes, Nat.mul_one]
  refine ⟨trivial, trivial, trivial, trivial, trivial, ?_, ?_, ?_, ?_⟩
  · -- first header byte survives the payload copy
    rw [hW _ ?_]
    · exact hh0
    · intro j hj
      rw [Nat.mod_mod_of_dvd _ dvd_rfl, pos_congr1]
      intro heq
      have heq2 : (f.in_ + 0) % (f.mask + 1) =
          (f.in_ + (recsize + j)) % (f.mask + 1) := by
        rw [Nat.add_zero]
        rw [show f.in_ + recsize + j = f.in_ + (recsize + j) by omega] at heq
        exact heq
      have hinj := mod_shift_inj f.in_ 0 (recsize + j) (f.mask + 1)
        (by omega) (by omega) heq2
      omega
  · -- second header byte survives the copy (recsize = 2)
    intro h2r
    subst h2r
    rw [hW _ ?_]
    · exact hh1 rfl
    · intro j hj
      rw [Nat.mod_mod_of_dvd _ dvd_rfl, pos_congr1]
      intro heq
      have heq2 : (f.in_ + 1) % (f.mask + 1) =
          (f.in_ + (2 + j)) % (f.mask + 1) := by
        rw [show f.in_ + 2 + j = f.in_ + (2 + j) by omega] at heq
        exact heq
      have hinj := mod_shift_inj f.in_ 1 (2 + j) (f.mask + 1)
        (by omega) (by omega) heq2
      omega
  · -- payload bytes
    intro j hj
    have hhit := hWhit j hj
    rw [pos_congr1] at hhit
    exact hhit
  · -- untouched bytes
    intro i hmiss
    rw [hW _ ?_]
    · apply hhmiss
      · intro heq
        have h0 := hmiss 0 (by omega)
        rw [heq, Nat.add_zero, Nat.mod_mod_of_dvd _ dvd_rfl] at h0
        exact h0 rfl
      · intro h2r heq
        subst h2r
        have hone := hmiss 1 (by omega)
        rw [heq, Nat.mod_mod_of_dvd _ dvd_rfl] at hone
        exact hone rfl
    · intro j hj
      rw [pos_congr1, show f.in_ + recsize + j = f.in_ + (recsize + j) by omega]
      exact hmiss (recsize + j) (by omega)


/-- Claim C4: a record that does not fit (`len + recsize` exceeding the
unused space) is rejected wholesale — return 0, identical state, no byte
written; otherwise the header and exactly the `len` payload bytes are
written, the write index advances by `len + recsize` in one step, and
`len` is returned. -/
theorem enqueue_record_spec (f : State) (buf : List Nat) (len recsize m : Nat)
    (hr : recsize = 1 ∨ recsize = 2)
    (h1 : f.in_ < U32) (h2 : f.out_ < U32)
    (hm : f.mask + 1 = 2 ^ m) (hm1 : 1 ≤ m) (hm30 : m ≤ 30)
    (hes : f.esize = 1)
    (hocc : kfifo_len f ≤ f.mask + 1)
    (hbuf : len ≤ buf.length) :
    (len + recsize > kfifo_unused f → __kfifo_in_r f buf len recsize = (0, f)) ∧
    (len + recsize ≤ kfifo_unused f →
      (__kfifo_in_r f buf len recsize).1 = len ∧
      (__kfifo_in_r f buf len recsize).2.in_ = (f.in_ + (len + recsize)) % U32 ∧
      (__kfifo_in_r f buf len recsize).2.out_ = f.out_ ∧
      (__kfifo_in_r f buf len recsize).2.data (f.in_ % (f.mask + 1)) = len % 256 ∧
      (recsize = 2 →
        (__kfifo_in_r f buf len recsize).2.data ((f.in_ + 1) % (f.mask + 1)) =
          (len >>> 8) % 256) ∧
      (∀ j, j < len →
        (__kfifo_in_r f buf len recsize).2.data
          ((f.in_ + recsize + j) % (f.mask + 1)) = buf.getD j 0) ∧
      (∀ i, (∀ j, j < len + recsize →
          i % (f.mask + 1) ≠ (f.in_ + j) % (f.mask + 1)) →
        (__kfifo_in_r f buf len recsize).2.data i = f.data i)) := by
  constructor
  · intro h
    simp only [__kfifo_in_r, if_pos h]
  · intro h
    obtain ⟨c1, c2, c3, c4, c5, c6, c7, c8, c9⟩ :=
      in_r_accept f buf len recsize m hr h1 h2 hm hm1 hm30 hes hocc hbuf h
    exact ⟨c1, c2, c3, c6, c7, c8, c9⟩

/-- Witness for `enqueue_record_spec`: a 2-byte record accepted by a
fresh capacity-8 fifo, and an 8-byte record rejected by it with the
state returned unchanged. -/
theorem enqueue_record_spec_witness :
    (__kfifo_in_r freshFifo8 [65, 66] 2 1).1 = 2 ∧
    __kfifo_in_r freshFifo8 [1, 2, 3, 4, 5, 6, 7, 8] 8 1 = (0, freshFifo8) :=
  ⟨((enqueue_record_spec freshFifo8 [65, 66] 2 1 3 (Or.inl rfl) (by decide)
      (by decide) (by decide) (by decide) (by decide) (by decide) (by decide)
      (by decide)).2 (by decide)).1,
   (enqueue_record_spec freshFifo8 [1, 2, 3, 4, 5, 6, 7, 8] 8 1 3 (Or.inl rfl)
      (by decide) (by decide) (by decide) (by decide) (by decide) (by decide)
      (by decide) (by decide)).1 (by decide)⟩


/-- Claim C5: `__kfifo_out_r` on an empty fifo returns 0 and changes
nothing; on a non-empty fifo holding a record whose decoded length is
`n` (with `n + recsize` within the occupancy), it copies exactly
`min(destination_capacity, n)` payload bytes, returns that count, and
advances the read index by the full `n + recsize` regardless of how many
bytes were copied, discarding any unread tail. -/
theorem dequeue_record_spec (f : State) (len recsize m : Nat)
    (hr : recsize = 1 ∨ recsize = 2)
    (h1 : f.in_ < U32) (h2 : f.out_ < U32)
    (hm : f.mask + 1 = 2 ^ m) (hm30 : m ≤ 30)
    (hes : f.esize = 1)
    (hocc : kfifo_len f ≤ f.mask + 1) :
    (f.in_ = f.out_ → __kfifo_out_r f len recsize = (0, [], f)) ∧
    (f.in_ ≠ f.out_ →
      __kfifo_peek_n f recsize + recsize ≤ kfifo_len f →
      (__kfifo_out_r f len recsize).1 = min len (__kfifo_peek_n f recsize) ∧
      (__kfifo_out_r f len recsize).2.1 =
        (List.range (min len (__kfifo_peek_n f recsize))).map
          (fun j => f.data ((f.out_ + recsize + j) % (f.mask + 1))) ∧
      (__kfifo_out_r f len recsize).2.2.out_ =
        (f.out_ + (__kfifo_peek_n f recsize + recsize)) % U32 ∧
      (__kfifo_out_r f len recsize).2.2.in_ = f.in_ ∧
      (__kfifo_out_r f len recsize).2.2.data = f.data) := by
  constructor
  · intro h
    simp only [__kfifo_out_r, if_pos h]
  · intro h hn
    have hS : 0 < f.mask + 1 := by positivity
    set n := __kfifo_peek_n f recsize with hndef
    have hmin : (if len > n then n else len) = min len n := by
      rcases Nat.lt_or_ge n len with hc | hc
      · rw [if_pos hc, min_eq_right (Nat.le_of_lt hc)]
      · rw [if_neg (by omega), min_eq_left hc]
    have hminS : min len n ≤ f.mask + 1 :=
      Nat.le_trans (min_le_right _ _) (by omega)
    have hcb : (f.mask + 1) * f.esize ≤ 2 ^ 31 := by
      rw [hes, Nat.mul_one]
      have hp : (2:Nat) ^ m ≤ 2 ^ 30 := Nat.pow_le_pow_right (by norm_num) hm30
      have h31 : (2:Nat) ^ 30 ≤ 2 ^ 31 := by norm_num
      omega
    have hco := kfifo_copy_out_eq f (min len n) (f.out_ + recsize) m hm hm30
      (by rw [hes]) hcb hminS
    have hgoal : __kfifo_out_r f len recsize =
      (min len n,
        circRead f.data ((f.out_ + recsize) % (f.mask + 1) * f.esize)
          (min len n * f.esize) ((f.mask + 1) * f.esize),
        { f with out_ := (f.out_ + (n + recsize)) % U32 }) := by
      simp only [__kfifo_out_r, if_neg h, kfifo_out_copy_r, ← hndef, hmin, hco]
      rfl
    rw [hgoal]
    refine ⟨rfl, ?_, rfl, rfl, rfl⟩
    simp only [hes, Nat.mul_one]
    rw [circRead_eq f.data _ _ _ (Nat.mod_lt _ hS) hminS]
    simp only [pos_congr1]


/-- Witness for `dequeue_record_spec`: dequeue the record `"AB"` into a
1-byte destination; the count returned is 1 but the read index advances
by the full 3 bytes. -/
theorem dequeue_record_spec_witness :
    (__kfifo_out_r (__kfifo_in_r freshFifo8 [65, 66] 2 1).2 1 1).1 =
      min 1 (__kfifo_peek_n (__kfifo_in_r freshFifo8 [65, 66] 2 1).2 1) ∧
    (__kfifo_out_r (__kfifo_in_r freshFifo8 [65, 66] 2 1).2 1 1).2.2.out_ =
      ((__kfifo_in_r freshFifo8 [65, 66] 2 1).2.out_ +
        (__kfifo_peek_n (__kfifo_in_r freshFifo8 [65, 66] 2 1).2 1 + 1)) % U32 :=
  ⟨(((dequeue_record_spec (__kfifo_in_r freshFifo8 [65, 66] 2 1).2 1 1 3
      (Or.inl rfl) (by decide) (by decide) (by decide) (by decide) (by decide)
      (by decide)).2 (by decide)) (by decide)).1,
   (((dequeue_record_spec (__kfifo_in_r freshFifo8 [65, 66] 2 1).2 1 1 3
      (Or.inl rfl) (by decide) (by decide) (by decide) (by decide) (by decide)
      (by decide)).2 (by decide)) (by decide)).2.2.1⟩

theorem byte_pair_decode (x : Nat) :
    (x % 2 ^ 8) ||| ((x >>> 8) % 2 ^ 8) <<< 8 = x % 2 ^ 16 := by
  apply Nat.eq_of_testBit_eq
  intro i
  simp only [Nat.testBit_or, Nat.testBit_mod_two_pow, Nat.testBit_shiftLeft,
    Nat.testBit_shiftRight]
  by_cases h8 : i < 8
  · have h16 : i < 16 := by omega
    have hge : ¬ (i ≥ 8) := by omega
    simp [h8, h16, hge]
  · by_cases h16 : i < 16
    · have hge : i ≥ 8 := by omega
      have hidx : 8 + (i - 8) = i := by omega
      have hlt : i - 8 < 8 := by omega
      simp [h8, h16, hge, hidx, hlt]
    · have hge : i ≥ 8 := by omega
      have hlt : ¬ (i - 8 < 8) := by omega
      simp [h8, h16, hge, hlt]


/-- Claim C10: `__kfifo_in_r` never applies the `__kfifo_max_r` clamp:
whenever `len + recsize` fits in the unused space it accepts the record
and returns `len` even when `len` exceeds the maximum value a
`recsize`-byte header can hold; the header then stores only
`len mod 2^(8*recsize)`, so the header decoded later disagrees with the
number of payload bytes actually written, and `__kfifo_max_r` (which
would have clamped `len` to that maximum) returns a different value than
the one `__kfifo_in_r` reports. -/
theorem enqueue_record_overlong (f : State) (buf : List Nat) (len recsize m : Nat)
    (hr : recsize = 1 ∨ recsize = 2)
    (h1 : f.in_ < U32) (h2 : f.out_ < U32)
    (hm : f.mask + 1 = 2 ^ m) (hm1 : 1 ≤ m) (hm30 : m ≤ 30)
    (hes : f.esize = 1)
    (hocc : kfifo_len f ≤ f.mask + 1)
    (hbuf : len ≤ buf.length)
    (hfit : len + recsize ≤ kfifo_unused f)
    (hbig : u32 ((1 <<< (recsize <<< 3)) - 1) < len) :
    (__kfifo_in_r f buf len recsize).1 = len ∧
    (__kfifo_in_r f buf len recsize).2.in_ = (f.in_ + (len + recsize)) % U32 ∧
    (__kfifo_in_r f buf len recsize).2.data (f.in_ % (f.mask + 1)) = len % 256 ∧
    (recsize = 2 →
      (__kfifo_in_r f buf len recsize).2.data ((f.in_ + 1) % (f.mask + 1)) =
        (len >>> 8) % 256) ∧
    (recsize = 1 → len % 256 ≠ len) ∧
    (recsize = 2 →
      (len % 256) ||| ((len >>> 8) % 256) <<< 8 = len % 65536 ∧
      len % 65536 ≠ len) ∧
    __kfifo_max_r len recsize = u32 ((1 <<< (recsize <<< 3)) - 1) ∧
    __kfifo_max_r len recsize ≠ (__kfifo_in_r f buf len recsize).1 := by
  obtain ⟨c1, c2, c3, c4, c5, c6, c7, c8, c9⟩ :=
    in_r_accept f buf len recsize m hr h1 h2 hm hm1 hm30 hes hocc hbuf hfit
  have hmax : __kfifo_max_r len recsize = u32 ((1 <<< (recsize <<< 3)) - 1) := by
    simp only [__kfifo_max_r]
    rw [if_pos hbig]
  refine ⟨c1, c2, c6, c7, ?_, ?_, hmax, ?_⟩
  · intro h1r
    subst h1r
    have hb : (255:Nat) < len := by
      have : u32 ((1 <<< (1 <<< 3)) - 1) = 255 := by decide
      omega
    have := Nat.mod_lt len (show 0 < 256 by norm_num)
    omega
  · intro h2r
    subst h2r
    have hb : (65535:Nat) < len := by
      have : u32 ((1 <<< (2 <<< 3)) - 1) = 65535 := by decide
      omega
    constructor
    · have hd := byte_pair_decode len
      norm_num at hd ⊢
      exact hd
    · have := Nat.mod_lt len (show 0 < 65536 by norm_num)
      omega
  · rw [hmax, c1]
    omega

/-- Witness for `enqueue_record_overlong`: a 300-byte record in a
capacity-1024 record fifo with a 1-byte header stores header byte
`300 mod 256 = 44` yet returns 300. -/
theorem enqueue_record_overlong_witness :
    (__kfifo_in_r bigFifo (List.replicate 300 7) 300 1).1 = 300 ∧
    (__kfifo_in_r bigFifo (List.replicate 300 7) 300 1).2.data
      (bigFifo.in_ % (bigFifo.mask + 1)) = 300 % 256 ∧
    __kfifo_max_r 300 1 ≠ (__kfifo_in_r bigFifo (List.replicate 300 7) 300 1).1 := by
  obtain ⟨w1, -, w3, -, -, -, -, w8⟩ :=
    enqueue_record_overlong bigFifo (List.replicate 300 7) 300 1 10
      (Or.inl rfl) (by decide) (by decide) (by decide) (by decide) (by decide)
      (by decide) (by decide) (by rw [List.length_replicate]) (by decide) (by decide)
  exact ⟨w1, w3, w8⟩

end Kfifo
